import Mathlib

/-!
Verification development for the C-PAC repository fragment consisting of
`CPAC/func_preproc/func_preproc.py` and
`CPAC/pipeline/cpac_ga_model_generator.py`.

The Python source is shallowly embedded: pure helper functions become Lean
functions on `Int`, `List Char` and `List` values; the workflow-graph wiring
becomes an explicit edge list; the fallible driver loops become functions into
`Except`.  Strings are modelled as `List Char` so that Python string
primitives (`in`, `split`, `rstrip`, `readlines`, regular-expression
substitution on the nine fixed patterns) can be given exact executable
counterparts.
-/

namespace CPAC

/-! ## `get_idx` from `CPAC/func_preproc/func_preproc.py`

The source reads the number of volumes `nvols` from the NIfTI header and then
resolves the user-supplied optional start/stop indices.  The header read is
external I/O; `nvols` is therefore a parameter here.  The function returns the
pair `(stopidx, startidx)` in that order, as the source does. -/

/-- Shallow embedding of `get_idx(in_files, stop_idx, start_idx)`
(func_preproc.py lines 356-394): `startidx` is `0` when `start_idx` is
`None`, negative, or greater than `nvols - 1`, otherwise `start_idx`;
`stopidx` is `nvols - 1` when `stop_idx` is `None` or greater than
`nvols - 1`, otherwise `stop_idx`.  Returns `(stopidx, startidx)`. -/
def get_idx (nvols : Int) (stop_idx start_idx : Option Int) : Int × Int :=
  let startidx : Int :=
    match start_idx with
    | none => 0
    | some s => if s < 0 ∨ s > nvols - 1 then 0 else s
  let stopidx : Int :=
    match stop_idx with
    | none => nvols - 1
    | some s => if s > nvols - 1 then nvols - 1 else s
  (stopidx, startidx)

/-- C1 (counterexample): an explicitly negative stop index is *not* clamped.
With `nvols = 3` the pair `(start, stop) = (unset, -2)` is outside
`[0, nvols-1]`, yet `get_idx` resolves the stop index to `-2`, which is
neither boundary value `0` nor `nvols - 1 = 2`. -/
theorem get_idx_negative_stop_not_clamped :
    (-2 : Int) < 0 ∧ get_idx 3 (some (-2)) none = (-2, 0) ∧
      ((-2 : Int) ≠ 0 ∧ (-2 : Int) ≠ 3 - 1) := by
  refine ⟨by decide, ?_, by decide, by decide⟩
  simp [get_idx]

/-- C1 (amended): the resolution rules hold exactly as the source states
them, and the clamping-to-boundary consequence holds for the start index
always, and for the stop index whenever the stop index is not an explicitly
supplied negative value (a negative stop index is returned unchanged). -/
theorem get_idx_resolution (nvols : Int) (start stop : Option Int)
    (h : 1 ≤ nvols) :
    ((start = none → (get_idx nvols stop start).2 = 0) ∧
     (∀ s, start = some s → s < 0 ∨ s > nvols - 1 →
        (get_idx nvols stop start).2 = 0) ∧
     (∀ s, start = some s → 0 ≤ s → s ≤ nvols - 1 →
        (get_idx nvols stop start).2 = s)) ∧
    ((stop = none → (get_idx nvols stop start).1 = nvols - 1) ∧
     (∀ s, stop = some s → s > nvols - 1 →
        (get_idx nvols stop start).1 = nvols - 1) ∧
     (∀ s, stop = some s → s ≤ nvols - 1 → (get_idx nvols stop start).1 = s)) ∧
    (0 ≤ (get_idx nvols stop start).2 ∧
      (get_idx nvols stop start).2 ≤ nvols - 1) ∧
    ((∀ s, stop = some s → 0 ≤ s) →
      0 ≤ (get_idx nvols stop start).1 ∧
        (get_idx nvols stop start).1 ≤ nvols - 1) := by
  cases start <;> cases stop <;>
    refine ⟨⟨?_, ?_, ?_⟩, ⟨?_, ?_, ?_⟩, ⟨?_, ?_⟩, ?_⟩ <;> intros <;>
    (try simp_all [get_idx]) <;>
    (try split_ifs) <;> omega

/-- C1 (witness for the amended theorem): at `nvols = 3`,
`start = 5`, `stop = 7` (both out of range and nonnegative) the resolved
pair is `(2, 0)`, which lies in `[0, 2]`. -/
theorem get_idx_resolution_witness :
    get_idx 3 (some 7) (some 5) = (2, 0) ∧
      (0 ≤ (get_idx 3 (some 7) (some 5)).2 ∧
        (get_idx 3 (some 7) (some 5)).2 ≤ 3 - 1) ∧
      (0 ≤ (get_idx 3 (some 7) (some 5)).1 ∧
        (get_idx 3 (some 7) (some 5)).1 ≤ 3 - 1) :=
  ⟨by decide,
   (get_idx_resolution 3 (some 5) (some 7) (by decide)).2.2.1,
   (get_idx_resolution 3 (some 5) (some 7) (by decide)).2.2.2
     (by intro s hs; cases hs; decide)⟩

/-! ## Subject-list parsing (cpac_ga_model_generator.py lines 45-50)

The driver reads the group subject list with `readlines()` and keeps
`line.rstrip('\n')` for every line with `not (line == '\n') and
not line.startswith('#')`.  Python's `readlines` splits the file contents at
every newline, keeping the terminator on each line; `rstrip('\n')` removes
all trailing newline characters; `startswith('#')` tests the first
character. -/

/-- Python `readlines`: split a character stream into lines, each line
keeping its terminating newline (the final line may lack one); an empty
stream yields no lines. -/
def readlines : List Char → List (List Char)
  | [] => []
  | c :: rest =>
    if c = '\n' then ['\n'] :: readlines rest
    else
      match readlines rest with
      | [] => [[c]]
      | l :: ls => (c :: l) :: ls

/-- Python `splitlines`: the logical lines of a character stream, without
terminators and without a phantom empty final line. -/
def splitlines : List Char → List (List Char)
  | [] => []
  | c :: rest =>
    if c = '\n' then [] :: splitlines rest
    else
      match splitlines rest with
      | [] => [[c]]
      | l :: ls => (c :: l) :: ls

/-- Python `rstrip('\n')`: remove all trailing newline characters. -/
def stripNL : List Char → List Char
  | [] => []
  | c :: rest =>
    match stripNL rest with
    | [] => if c = '\n' then [] else [c]
    | d :: ds => c :: d :: ds

/-- Python `startswith('#')`. -/
def startsHash : List Char → Bool
  | [] => false
  | c :: _ => c == '#'

/-- The source's keep-condition on a raw `readlines` line:
`not (line == '\n') and not line.startswith('#')`. -/
def pyKeep (l : List Char) : Bool := !(l == ['\n']) && !startsHash l

/-- Embedding of lines 45-50 of `cpac_ga_model_generator.py`: the parsed
group subject list obtained from the raw file contents. -/
def group_sublist (f : List Char) : List (List Char) :=
  ((readlines f).filter pyKeep).map stripNL

/-- The spec's keep-condition on a logical line: non-blank and not a
`#`-comment. -/
def specKeep (l : List Char) : Bool := !(l == []) && !startsHash l

/-- Modelled from the spec sentence "parsing yields exactly the non-blank,
non-comment lines with trailing newlines removed": the logical lines of the
file, with blank lines and `#`-prefixed lines dropped, in file order. -/
def spec_group_sublist (f : List Char) : List (List Char) :=
  (splitlines f).filter specKeep

theorem stripNL_eq (c : Char) (l : List Char) :
    stripNL (c :: l) =
      match stripNL l with
      | [] => if c = '\n' then [] else [c]
      | d :: ds => c :: d :: ds := rfl

theorem stripNL_cons {c : Char} (l : List Char) (h : ¬c = '\n') :
    stripNL (c :: l) = c :: stripNL l := by
  rw [stripNL_eq]
  cases stripNL l with
  | nil => simp [h]
  | cons d ds => rfl

theorem readlines_eq (c : Char) (rest : List Char) :
    readlines (c :: rest) =
      if c = '\n' then ['\n'] :: readlines rest
      else
        match readlines rest with
        | [] => [[c]]
        | l :: ls => (c :: l) :: ls := rfl

theorem splitlines_eq (c : Char) (rest : List Char) :
    splitlines (c :: rest) =
      if c = '\n' then [] :: splitlines rest
      else
        match splitlines rest with
        | [] => [[c]]
        | l :: ls => (c :: l) :: ls := rfl

theorem readlines_map_stripNL (s : List Char) :
    (readlines s).map stripNL = splitlines s := by
  induction s with
  | nil => rfl
  | cons c rest ih =>
    rw [readlines_eq, splitlines_eq]
    by_cases hc : c = '\n'
    · rw [if_pos hc, if_pos hc, List.map_cons, ih]
      rfl
    · rw [if_neg hc, if_neg hc]
      cases hr : readlines rest with
      | nil =>
        rw [hr] at ih
        simp only [List.map_nil] at ih
        rw [← ih]
        simp [stripNL_cons _ hc, stripNL, hc]
      | cons l ls =>
        rw [hr] at ih
        simp only [List.map_cons] at ih
        rw [← ih]
        simp [stripNL_cons _ hc]

/-- Structural facts about a raw `readlines` line that let the two
keep-conditions be matched up. -/
def goodLine (l : List Char) : Prop :=
  (stripNL l = [] ↔ l = ['\n']) ∧ (startsHash (stripNL l) = startsHash l ∨ l = ['\n'])

theorem readlines_good (s : List Char) : ∀ l ∈ readlines s, goodLine l := by
  induction s with
  | nil => intro l hl; simp [readlines] at hl
  | cons c rest ih =>
    intro l hl
    rw [readlines_eq] at hl
    by_cases hc : c = '\n'
    · rw [if_pos hc] at hl
      simp only [List.mem_cons] at hl
      rcases hl with rfl | hl
      · exact ⟨by simp [stripNL], Or.inr rfl⟩
      · exact ih l hl
    · rw [if_neg hc] at hl
      cases hr : readlines rest with
      | nil =>
        rw [hr] at hl
        simp only [List.mem_singleton] at hl
        subst hl
        refine ⟨?_, Or.inl ?_⟩
        · simp [stripNL, hc]
        · simp [stripNL, hc, startsHash]
      | cons m ms =>
        rw [hr] at hl
        simp only [List.mem_cons] at hl
        rcases hl with rfl | hl
        · refine ⟨?_, Or.inl ?_⟩
          · rw [stripNL_cons _ hc]
            constructor
            · intro h; exact absurd h (by simp)
            · intro h; injection h with h1 _; exact absurd h1 hc
          · rw [stripNL_cons _ hc]
            cases m <;> simp [startsHash]
        · exact ih l (hr ▸ List.mem_cons_of_mem m hl)

/-- C5: parsing the group subject list yields exactly the non-blank,
non-comment logical lines of the file with trailing newlines removed, in
file order: the source's `readlines`-based comprehension agrees with the
spec's description on every input file. -/
theorem group_sublist_eq_spec (f : List Char) :
    group_sublist f = spec_group_sublist f := by
  unfold group_sublist spec_group_sublist
  rw [← readlines_map_stripNL, List.filter_map]
  have h := List.filter_congr (l := readlines f)
    (p := pyKeep) (q := specKeep ∘ stripNL) ?_
  · rw [h]
  · intro l hl
    obtain ⟨h1, h2⟩ := readlines_good f l hl
    by_cases hnl : l = ['\n']
    · subst hnl
      simp [pyKeep, specKeep, Function.comp, stripNL]
    · have hne : stripNL l ≠ [] := fun h => hnl (h1.mp h)
      rcases h2 with h2 | h2
      · have e1 : (l == ['\n']) = false := by simp [hnl]
        have e2 : (stripNL l).isEmpty = false := by
          cases h : stripNL l with
          | nil => exact absurd h hne
          | cons d ds => rfl
        simp [pyKeep, specKeep, Function.comp, h2, e1, e2]
      · exact absurd h2 hnl

/-! ## Subject filtering (cpac_ga_model_generator.py lines 61-166)

For each entry of the parsed group subject list the driver (1) raises when
the entry's format disagrees with the repeated-measures flag, (2) appends,
for every candidate derivative path containing the subject's identifiers as
substrings, the entry to `exist_paths` and the path to `derivative_paths`,
and (3) raises when the *cumulative* `derivative_paths` list is empty after
the entry has been processed. -/

/-- Python list/str prefix test used to implement substring search. -/
def isPrefixL : List Char → List Char → Bool
  | [], _ => true
  | _ :: _, [] => false
  | a :: as, b :: bs => a == b && isPrefixL as bs

/-- Python's substring operator `needle in haystack` on strings. -/
def inStr (needle : List Char) : List Char → Bool
  | [] => needle.isEmpty
  | l@(_ :: rest) => isPrefixL needle l || inStr needle rest

/-- Python `s.count(',')`. -/
def commaCount (s : List Char) : Nat := s.countP (· == ',')

/-- Python `s.split(',')` (with exactly `k` commas, `s.split(',', k)` is the
same full split, which is how the source uses it). -/
def splitComma : List Char → List (List Char)
  | [] => [[]]
  | c :: rest =>
    if c = ',' then [] :: splitComma rest
    else
      match splitComma rest with
      | [] => [[c]]
      | l :: ls => (c :: l) :: ls

/-- Embedding of the repeated-measures format validation (lines 68-95): the
entry triggers the fatal format-mismatch error exactly when repeated
measures is enabled and the entry has no comma, or repeated measures is
disabled and the entry has a comma. -/
def formatMismatch (rm : Bool) (gaSub : List Char) : Bool :=
  (rm && !inStr [','] gaSub) || (!rm && inStr [','] gaSub)

/-- Embedding of the per-path matching test (lines 132-151): with repeated
measures off, plain substring containment of the whole entry; with repeated
measures on, containment of the comma-separated components (entries with a
comma count other than 1 or 2 match nothing, as in the source). -/
def matchEntry (rm : Bool) (gaSub path : List Char) : Bool :=
  if rm then
    if commaCount gaSub == 1 then
      inStr ((splitComma gaSub).getD 0 []) path &&
        inStr ((splitComma gaSub).getD 1 []) path
    else if commaCount gaSub == 2 then
      inStr ((splitComma gaSub).getD 0 []) path &&
        inStr ((splitComma gaSub).getD 1 []) path &&
          inStr ((splitComma gaSub).getD 2 []) path
    else false
  else inStr gaSub path

/-- The two distinct fatal errors raised inside the subject-list loop. -/
inductive DriverError
  | formatError
  | noDerivatives
  deriving DecidableEq, Repr

/-- Embedding of the subject-list loop (lines 61-166), with the two
accumulators `exist_paths` and `derivative_paths` threaded explicitly. -/
def processSubjects (rm : Bool) (sPaths : List (List Char)) :
    List (List Char) → List (List Char) → List (List Char) →
    Except DriverError (List (List Char) × List (List Char))
  | [], existPaths, derivativePaths => .ok (existPaths, derivativePaths)
  | gaSub :: rest, existPaths, derivativePaths =>
    if formatMismatch rm gaSub then .error .formatError
    else
      let matched := sPaths.filter (matchEntry rm gaSub)
      let deriv := derivativePaths ++ matched
      if deriv.isEmpty then .error .noDerivatives
      else processSubjects rm sPaths rest
        (existPaths ++ matched.map (fun _ => gaSub)) deriv

/-- The whole filtering pass over the group subject list.  On success the
first component is `exist_paths`, whose entries (lines 192-207) are exactly
the lines written to the subject-list file in the model-files directory. -/
def subjectFilter (rm : Bool) (groupSublist sPaths : List (List Char)) :
    Except DriverError (List (List Char) × List (List Char)) :=
  processSubjects rm sPaths groupSublist [] []

theorem isPrefixL_iff (n h : List Char) : isPrefixL n h = true ↔ n <+: h := by
  induction n generalizing h with
  | nil => simp [isPrefixL]
  | cons a as ih =>
    cases h with
    | nil => simp [isPrefixL]
    | cons b bs =>
      simp only [isPrefixL, Bool.and_eq_true, beq_iff_eq, ih,
        List.cons_prefix_cons]

theorem inStr_iff (n h : List Char) : inStr n h = true ↔ n <:+: h := by
  induction h with
  | nil => simp [inStr, List.isEmpty_iff]
  | cons b bs ih =>
    simp only [inStr, Bool.or_eq_true, isPrefixL_iff, ih,
      List.infix_cons_iff]

theorem inStr_comma_iff (s : List Char) : inStr [','] s = true ↔ ',' ∈ s := by
  rw [inStr_iff]
  constructor
  · intro hin
    exact hin.mem (by simp)
  · intro hm
    obtain ⟨u, v, rfl⟩ := List.append_of_mem hm
    exact ⟨u, v, by simp⟩

theorem inStr_comma_false_iff (s : List Char) :
    inStr [','] s = false ↔ ',' ∉ s := by
  constructor
  · intro h hm
    have := (inStr_comma_iff _).mpr hm
    rw [h] at this
    exact absurd this (by simp)
  · intro hm
    cases hi : inStr [','] s
    · rfl
    · exact absurd ((inStr_comma_iff _).mp hi) hm

/-- Closed form of a successful run of the loop: `exist_paths` lists each
entry once per matching path, in subject-list order then path order. -/
theorem processSubjects_ok (rm : Bool) (sPaths : List (List Char))
    (l e d E D : List (List Char))
    (h : processSubjects rm sPaths l e d = .ok (E, D)) :
    E = e ++ l.flatMap
        (fun g => (sPaths.filter (matchEntry rm g)).map (fun _ => g)) ∧
      D = d ++ l.flatMap (fun g => sPaths.filter (matchEntry rm g)) := by
  induction l generalizing e d with
  | nil =>
    simp only [processSubjects] at h
    injection h with h
    injection h with h1 h2
    subst h1; subst h2
    simp
  | cons g rest ih =>
    simp only [processSubjects] at h
    by_cases hf : formatMismatch rm g
    · rw [if_pos hf] at h; exact absurd h (by simp)
    · rw [if_neg hf] at h
      by_cases he : (d ++ sPaths.filter (matchEntry rm g)).isEmpty
      · rw [if_pos he] at h; exact absurd h (by simp)
      · rw [if_neg he] at h
        obtain ⟨h1, h2⟩ := ih _ _ h
        refine ⟨?_, ?_⟩
        · rw [h1]; simp [List.flatMap_cons]
        · rw [h2]; simp [List.flatMap_cons]

instance exceptDecEq {ε α : Type} [DecidableEq ε] [DecidableEq α] :
    DecidableEq (Except ε α) := fun x y =>
  match x, y with
  | .ok a, .ok b =>
    if h : a = b then isTrue (by rw [h]) else isFalse (by simp [h])
  | .error a, .error b =>
    if h : a = b then isTrue (by rw [h]) else isFalse (by simp [h])
  | .ok _, .error _ => isFalse (by simp)
  | .error _, .ok _ => isFalse (by simp)

theorem count_map_const {α β : Type} [BEq β] [LawfulBEq β] (x : List α)
    (g a : β) :
    (x.map (fun _ => g)).count a = if a == g then x.length else 0 := by
  induction x with
  | nil => simp
  | cons p ps ih =>
    rw [List.map_cons, List.count_cons, ih]
    by_cases h : a = g
    · subst h
      simp
    · rw [if_neg (by simp [h]), if_neg (by simp [Ne.symm h]), if_neg
        (by simp [h])]

theorem exist_flatMap_count (sublist paths : List (List Char))
    (sub : List Char) :
    (sublist.flatMap
        (fun g => (paths.filter (matchEntry false g)).map (fun _ => g))).count
        sub =
      sublist.count sub * paths.countP (matchEntry false sub) := by
  induction sublist with
  | nil => simp
  | cons g rest ih =>
    rw [List.flatMap_cons, List.count_append, ih, count_map_const,
      List.count_cons]
    by_cases hg : sub = g
    · subst hg
      rw [if_pos (by simp), if_pos (by simp), List.countP_eq_length_filter]
      ring
    · rw [if_neg (by simp [hg]), if_neg (by simp [Ne.symm hg])]
      ring

/-- C10: matching is plain substring containment, and a successful filtering
pass appends one `exist_paths` entry per matching candidate path: each
subject entry occurs in the filtered list (and hence in the written
subject-list file) exactly (occurrences in the group list) times
(number of candidate paths containing it as a substring) times. -/
theorem subjectFilter_substring_count (sublist paths E D : List (List Char))
    (sub : List Char)
    (h : subjectFilter false sublist paths = .ok (E, D)) :
    (∀ p, matchEntry false sub p = true ↔ sub <:+: p) ∧
      E.count sub = sublist.count sub * paths.countP (matchEntry false sub) := by
  refine ⟨fun p => by simp [matchEntry, inStr_iff], ?_⟩
  obtain ⟨hE, _⟩ := processSubjects_ok false paths sublist [] [] E D h
  rw [hE]
  simpa using exist_flatMap_count sublist paths sub

/-- C10 (witness): group list `["001", "0011"]` against candidate paths
`["a001b", "x0011y"]`: the identifier `"001"` occurs as a substring of both
paths (in the second because it is a prefix of `"0011"`), so `"001"` appears
exactly twice in the filtered list. -/
theorem subjectFilter_substring_count_witness :
    (["001".toList, "001".toList, "0011".toList].count "001".toList =
        ["001".toList, "0011".toList].count "001".toList *
          ["a001b".toList, "x0011y".toList].countP
            (matchEntry false "001".toList)) ∧
      ["001".toList, "001".toList, "0011".toList].count "001".toList = 2 :=
  ⟨(subjectFilter_substring_count ["001".toList, "0011".toList]
      ["a001b".toList, "x0011y".toList]
      ["001".toList, "001".toList, "0011".toList]
      ["a001b".toList, "x0011y".toList, "x0011y".toList]
      "001".toList (by decide)).2,
   by decide⟩

/-- C2 (counterexample): a subject whose identifier occurs in *two*
candidate paths is appended twice.  Group list `["001", "002"]` and paths
`["a/001/x", "b/001/y"]` contain identifiers for only `M = 1` of the `N = 2`
listed subjects, yet the filtered list has two entries, not `M = 1`. -/
theorem subjectFilter_duplicate_counterexample :
    subjectFilter false ["001".toList, "002".toList]
        ["a/001/x".toList, "b/001/y".toList] =
      .ok (["001".toList, "001".toList],
        ["a/001/x".toList, "b/001/y".toList]) ∧
      ["001".toList, "002".toList].countP
          (fun g => ["a/001/x".toList, "b/001/y".toList].any
            (fun p => inStr g p)) = 1 ∧
      ¬(["001".toList, "001".toList] : List (List Char)).length = 1 := by
  decide

theorem flatMap_matched_eq_filter (sublist paths : List (List Char))
    (huniq : ∀ g ∈ sublist, paths.countP (matchEntry false g) ≤ 1) :
    sublist.flatMap
        (fun g => (paths.filter (matchEntry false g)).map (fun _ => g)) =
      sublist.filter (fun g => paths.any (matchEntry false g)) := by
  induction sublist with
  | nil => simp
  | cons g rest ih =>
    simp only [List.flatMap_cons, List.filter_cons]
    have hg := huniq g (List.mem_cons_self g rest)
    rw [List.countP_eq_length_filter] at hg
    have hrest := ih fun x hx => huniq x (List.mem_cons_of_mem g hx)
    cases hfg : paths.filter (matchEntry false g) with
    | nil =>
      have hany : paths.any (matchEntry false g) = false := by
        rw [List.any_eq_false]
        intro p hp
        exact (List.filter_eq_nil_iff.mp hfg) p hp
      rw [hany]
      simpa using hrest
    | cons p ps =>
      have hps : ps = [] := by
        rw [hfg] at hg
        simpa using hg
      subst hps
      have hpf : p ∈ paths.filter (matchEntry false g) := by
        rw [hfg]; exact List.mem_cons_self p []
      have hany : paths.any (matchEntry false g) = true := by
        rw [List.any_eq_true]
        exact ⟨p, List.mem_of_mem_filter hpf, List.of_mem_filter hpf⟩
      rw [hany]
      simpa using hrest

/-- C2 (amended): when each listed subject's identifiers occur in at most
one candidate path, a successful filtering pass keeps exactly the subjects
with a matching path, one entry each, in the original group-list order (the
filtered list is literally the order-preserving filter of the group list),
and those entries are what is written to the model-files subject-list file.
In general a subject is appended once per matching path (see the
counterexample), so "exactly M entries" additionally needs the
one-path-per-subject hypothesis. -/
theorem subjectFilter_keeps_matched (sublist paths E D : List (List Char))
    (h : subjectFilter false sublist paths = .ok (E, D))
    (huniq : ∀ g ∈ sublist, paths.countP (matchEntry false g) ≤ 1) :
    E = sublist.filter (fun g => paths.any (matchEntry false g)) := by
  obtain ⟨hE, _⟩ := processSubjects_ok false paths sublist [] [] E D h
  rw [hE]
  simpa using flatMap_matched_eq_filter sublist paths huniq

/-- C2 (witness, the spec's end-to-end scenario): group list
`["001", "002", "003"]` with derivative paths existing only for `"001"` and
`"003"` filters to `["001", "003"]`, in original order. -/
theorem subjectFilter_keeps_matched_witness :
    (["001".toList, "003".toList] : List (List Char)) =
      ["001".toList, "002".toList, "003".toList].filter
        (fun g => ["sub001/d.nii".toList, "sub003/d.nii".toList].any
          (matchEntry false g)) :=
  subjectFilter_keeps_matched
    ["001".toList, "002".toList, "003".toList]
    ["sub001/d.nii".toList, "sub003/d.nii".toList]
    ["001".toList, "003".toList]
    ["sub001/d.nii".toList, "sub003/d.nii".toList]
    (by decide) (by decide)

theorem processSubjects_ok_of_nonempty (rm : Bool)
    (sPaths l : List (List Char)) :
    ∀ e d : List (List Char), (∀ g ∈ l, formatMismatch rm g = false) →
      d ≠ [] → ∃ E D, processSubjects rm sPaths l e d = .ok (E, D) := by
  induction l with
  | nil => exact fun e d _ _ => ⟨e, d, rfl⟩
  | cons g rest ih =>
    intro e d hfmt hd
    simp only [processSubjects]
    rw [if_neg (by simp [hfmt g (List.mem_cons_self g rest)])]
    have hne : (d ++ sPaths.filter (matchEntry rm g)).isEmpty = false := by
      cases d with
      | nil => exact absurd rfl hd
      | cons x xs => rfl
    rw [if_neg (by simp [hne])]
    refine ih _ _ (fun x hx => hfmt x (List.mem_cons_of_mem g hx)) ?_
    intro hc
    rw [hc] at hne
    exact absurd hne (by simp)

/-- C3 (counterexample): a listed subject with *zero* matching candidate
paths does not make the driver fail when an earlier subject already
matched: with group list `["001", "002"]` and the single path `"x001y"`,
subject `"002"` matches nothing, yet the run succeeds. -/
theorem subjectFilter_missing_subject_no_failure :
    subjectFilter false ["001".toList, "002".toList] ["x001y".toList] =
      .ok (["001".toList], ["x001y".toList]) ∧
      ["x001y".toList].filter (matchEntry false "002".toList) = [] := by
  decide

/-- C3 (amended): since the emptiness test (lines 156-164) is applied to the
*cumulative* `derivative_paths` list after each subject, the loop fails with
the no-derivatives error exactly when the group list is nonempty and its
*first* subject matches no candidate path (which subsumes "no derivatives
matched at all"); a later subject with zero matches does not fail. -/
theorem subjectFilter_noDerivatives_iff (rm : Bool)
    (sublist paths : List (List Char))
    (hfmt : ∀ g ∈ sublist, formatMismatch rm g = false) :
    subjectFilter rm sublist paths = .error .noDerivatives ↔
      ∃ g rest, sublist = g :: rest ∧ paths.filter (matchEntry rm g) = [] := by
  cases sublist with
  | nil =>
    simp only [subjectFilter, processSubjects]
    constructor
    · intro h; exact absurd h (by simp)
    · rintro ⟨g, rest, h, -⟩; exact absurd h (by simp)
  | cons g rest =>
    simp only [subjectFilter, processSubjects]
    rw [if_neg (by simp [hfmt g (List.mem_cons_self g rest)])]
    constructor
    · intro h
      cases hfg : paths.filter (matchEntry rm g) with
      | nil => exact ⟨g, rest, rfl, hfg⟩
      | cons p ps =>
        rw [hfg] at h
        rw [if_neg (by simp)] at h
        obtain ⟨E, D, hok⟩ := processSubjects_ok_of_nonempty rm paths rest
          ([] ++ (p :: ps).map fun _ => g) ([] ++ p :: ps)
          (fun x hx => hfmt x (List.mem_cons_of_mem g hx)) (by simp)
        rw [hok] at h
        exact absurd h (by simp)
    · rintro ⟨g', rest', heq, hmatch⟩
      injection heq with h1 h2
      subst h1; subst h2
      rw [hmatch]
      rfl

/-- C3 (witness): a group list whose first (and only) subject has no
matching candidate path fails with the no-derivatives error. -/
theorem subjectFilter_noDerivatives_witness :
    subjectFilter false ["001".toList] [] = .error .noDerivatives :=
  (subjectFilter_noDerivatives_iff false ["001".toList] [] (by decide)).mpr
    ⟨"001".toList, [], rfl, by decide⟩

theorem processSubjects_formatError_iff (rm : Bool)
    (sPaths l e d : List (List Char)) (hd : d ≠ []) :
    processSubjects rm sPaths l e d = .error .formatError ↔
      ∃ g ∈ l, formatMismatch rm g = true := by
  induction l generalizing e d with
  | nil =>
    simp only [processSubjects]
    constructor
    · intro h; exact absurd h (by simp)
    · rintro ⟨g, hg, -⟩; exact absurd hg (by simp)
  | cons g rest ih =>
    simp only [processSubjects]
    by_cases hf : formatMismatch rm g
    · rw [if_pos hf]
      simp [hf]
    · rw [if_neg hf]
      have hne : (d ++ sPaths.filter (matchEntry rm g)).isEmpty = false := by
        cases d with
        | nil => exact absurd rfl hd
        | cons x xs => rfl
      rw [if_neg (by simp [hne])]
      rw [ih _ _ (by simp [← List.isEmpty_iff, hne])]
      simp [hf]

/-- C4 (amended): the format-mismatch test itself is exactly as the claim
states it (repeated measures on and no comma, or off and a comma), but the
loop raises the fatal configuration error iff some entry mismatches *and*
the mismatch check is reached before the cumulative no-derivatives check
aborts the run: either the first entry itself mismatches, or the first entry
is well-formatted, has at least one matching path, and some later entry
mismatches. -/
theorem subjectFilter_formatError_iff (rm : Bool)
    (sublist paths : List (List Char)) :
    (∀ g, formatMismatch rm g = true ↔
        ((rm = true ∧ ',' ∉ g) ∨ (rm = false ∧ ',' ∈ g))) ∧
      (subjectFilter rm sublist paths = .error .formatError ↔
        ∃ g rest, sublist = g :: rest ∧
          (formatMismatch rm g = true ∨
            (formatMismatch rm g = false ∧
              paths.filter (matchEntry rm g) ≠ [] ∧
              ∃ g' ∈ rest, formatMismatch rm g' = true))) := by
  constructor
  · intro g
    cases rm <;>
      simp [formatMismatch, inStr_comma_iff, inStr_comma_false_iff,
        Bool.not_eq_true']
  · cases sublist with
    | nil =>
      simp only [subjectFilter, processSubjects]
      constructor
      · intro h; exact absurd h (by simp)
      · rintro ⟨g, rest, h, -⟩; exact absurd h (by simp)
    | cons g rest =>
      simp only [subjectFilter, processSubjects]
      by_cases hf : formatMismatch rm g
      · rw [if_pos hf]
        constructor
        · intro _; exact ⟨g, rest, rfl, Or.inl hf⟩
        · intro _; rfl
      · rw [if_neg hf]
        cases hfg : paths.filter (matchEntry rm g) with
        | nil =>
          rw [if_pos (by simp)]
          constructor
          · intro h; exact absurd h (by simp)
          · rintro ⟨g', rest', heq, hcase⟩
            injection heq with h1 h2
            subst h1; subst h2
            rcases hcase with hm | ⟨-, hne, -⟩
            · exact absurd hm hf
            · exact absurd hfg hne
        | cons p ps =>
          rw [if_neg (by simp)]
          rw [processSubjects_formatError_iff rm paths rest _ _ (by simp)]
          constructor
          · rintro ⟨g', hg', hm⟩
            exact ⟨g, rest, rfl,
              Or.inr ⟨by simpa using hf, by simp [hfg], g', hg', hm⟩⟩
          · rintro ⟨g', rest', heq, hcase⟩
            injection heq with h1 h2
            subst h1; subst h2
            rcases hcase with hm | ⟨-, -, g'', hg'', hm⟩
            · exact absurd hm hf
            · exact ⟨g'', hg'', hm⟩

/-- C4 (witness): with repeated measures enabled, a first entry without a
comma triggers the fatal format-mismatch error. -/
theorem subjectFilter_formatError_witness :
    subjectFilter true ["001".toList] [] = .error .formatError :=
  ((subjectFilter_formatError_iff true ["001".toList] []).2).mpr
    ⟨"001".toList, [], rfl, Or.inl (by decide)⟩

/-- C4 (counterexample): an entry whose format mismatches the flag does
*not* always trigger the format error: with repeated measures off, group
list `["001", "0,2"]` and no candidate paths, the second entry contains a
comma, but the run aborts first with the no-derivatives error of the first
entry. -/
theorem subjectFilter_formatError_preempted :
    subjectFilter false ["001".toList, "0,2".toList] [] =
        .error .noDerivatives ∧
      inStr [','] "0,2".toList = true ∧
      DriverError.noDerivatives ≠ DriverError.formatError := by
  decide

/-! ## Motion-parameter resolution (cpac_ga_model_generator.py lines 219-263)

The driver builds the path of the motion-parameter CSV and then branches on
whether Generate Motion Statistics was run and whether the file exists.  In
the middle branch (`elif (1 not in c.runGenerateMotionStatistics) and
(os.path.exists(parameter_file))`) the inner existence test re-checks the
branch's own guard and is therefore dead; the branch keeps the path as the
parameter file.  Only the final branch (not requested, file absent) checks
the design-formula measures and sets the parameter file to `None`. -/

/-- Embedding of the parameter-file resolution block.  `runGMS` is
`1 in c.runGenerateMotionStatistics`; `fileExists` is
`os.path.exists(parameter_file)`; `measure_list` and `design_formula` feed
the `no_measures_error` check; the result is the resolved value of
`parameter_file` (`.error ()` for the raised exceptions). -/
def resolve_parameter_file (runGMS fileExists : Bool)
    (measure_list : List (List Char)) (design_formula : List Char)
    (parameter_file : List Char) : Except Unit (Option (List Char)) :=
  if runGMS then
    if !fileExists then .error () else .ok (some parameter_file)
  else if fileExists then
    if !fileExists then .error () else .ok (some parameter_file)
  else
    if measure_list.any (fun m => inStr m design_formula) then .error ()
    else .ok none

/-- C6 (counterexample): with motion statistics not required, *no* formula
term needing them, but the parameter CSV present on disk, the parameter file
resolves to the path, not to `None` as the claim states. -/
theorem resolve_parameter_file_existing_not_none :
    resolve_parameter_file false true [] [] "p.csv".toList =
        .ok (some "p.csv".toList) ∧
      (Except.ok (some "p.csv".toList) : Except Unit (Option (List Char))) ≠
        .ok none := by
  decide

/-- C6 (amended): the resolution fails exactly when the parameter CSV is
absent and either motion statistics were required or some measure of the
measure list occurs in the design formula; when the CSV exists it is used
as the parameter file regardless of the motion-statistics flag; and the
parameter file resolves to `None` exactly when motion statistics were not
required, the CSV is absent, and no measure occurs in the formula. -/
theorem resolve_parameter_file_spec (runGMS fileExists : Bool)
    (ml : List (List Char)) (formula p : List Char) :
    (resolve_parameter_file runGMS fileExists ml formula p = .error () ↔
        fileExists = false ∧
          (runGMS = true ∨ ml.any (fun m => inStr m formula) = true)) ∧
      (resolve_parameter_file runGMS fileExists ml formula p = .ok none ↔
        runGMS = false ∧ fileExists = false ∧
          ml.any (fun m => inStr m formula) = false) ∧
      (resolve_parameter_file runGMS fileExists ml formula p = .ok (some p) ↔
        fileExists = true) := by
  cases runGMS <;> cases fileExists <;>
    cases hm : ml.any (fun m => inStr m formula) <;>
    simp [resolve_parameter_file, hm]

/-! ## The preprocessing workflow graph (func_preproc.py lines 198-353)

`create_func_preproc` declares the MapNodes and wires them with
`preproc.connect(src, srcPort, dst, dstPort)` calls.  The nodes, the
external interface each node wraps, and the complete ordered connection
list are transcribed below. -/

/-- The nodes of the `funcpreproc` workflow, named as in the source. -/
inductive PNode
  | inputspec
  | outputspec
  | func_get_idx
  | func_drop_trs
  | func_deoblique
  | func_reorient
  | func_get_mean_RPI
  | func_get_mean_motion
  | func_motion_correct
  | func_motion_correct_A
  | func_get_dilate_mask
  | func_edge_detect
  | func_mean_skullstrip
  | func_normalize
  | func_mask_normalize
  deriving DecidableEq, Repr

/-- The interface wrapped by each MapNode (clones wrap the same
interface as their source node). -/
def interfaceOf : PNode → String
  | .inputspec => "IdentityInterface"
  | .outputspec => "IdentityInterface"
  | .func_get_idx => "Function"
  | .func_drop_trs => "Threedcalc"
  | .func_deoblique => "Threedrefit"
  | .func_reorient => "Resample"
  | .func_get_mean_RPI => "TStat"
  | .func_get_mean_motion => "TStat"
  | .func_motion_correct => "Threedvolreg"
  | .func_motion_correct_A => "Threedvolreg"
  | .func_get_dilate_mask => "ThreedAutomask"
  | .func_edge_detect => "Threedcalc"
  | .func_mean_skullstrip => "TStat"
  | .func_normalize => "ImageMaths"
  | .func_mask_normalize => "ImageMaths"

/-- All nodes of the workflow, in declaration order. -/
def preproc_nodes : List PNode :=
  [.inputspec, .outputspec, .func_get_idx, .func_drop_trs, .func_deoblique,
   .func_reorient, .func_get_mean_RPI, .func_get_mean_motion,
   .func_motion_correct, .func_motion_correct_A, .func_get_dilate_mask,
   .func_edge_detect, .func_mean_skullstrip, .func_normalize,
   .func_mask_normalize]

/-- A dataflow edge `preproc.connect(src, srcPort, dst, dstPort)`. -/
structure PEdge where
  src : PNode
  srcPort : String
  dst : PNode
  dstPort : String
  deriving DecidableEq, Repr

/-- The complete connection list of `create_func_preproc`
(func_preproc.py lines 286-351), in source order. -/
def preproc_connections : List PEdge :=
  [⟨.inputspec, "rest", .func_get_idx, "in_files"⟩,
   ⟨.inputspec, "start_idx", .func_get_idx, "start_idx"⟩,
   ⟨.inputspec, "stop_idx", .func_get_idx, "stop_idx"⟩,
   ⟨.inputspec, "rest", .func_drop_trs, "infile_a"⟩,
   ⟨.func_get_idx, "startidx", .func_drop_trs, "start_idx"⟩,
   ⟨.func_get_idx, "stopidx", .func_drop_trs, "stop_idx"⟩,
   ⟨.func_drop_trs, "out_file", .func_deoblique, "in_file"⟩,
   ⟨.func_deoblique, "out_file", .func_reorient, "in_file"⟩,
   ⟨.func_reorient, "out_file", .func_get_mean_RPI, "in_file"⟩,
   ⟨.func_reorient, "out_file", .func_motion_correct, "in_file"⟩,
   ⟨.func_get_mean_RPI, "out_file", .func_motion_correct, "basefile"⟩,
   ⟨.func_motion_correct, "out_file", .func_get_mean_motion, "in_file"⟩,
   ⟨.func_reorient, "out_file", .func_motion_correct_A, "in_file"⟩,
   ⟨.func_get_mean_motion, "out_file", .func_motion_correct_A, "basefile"⟩,
   ⟨.func_motion_correct_A, "out_file", .func_get_dilate_mask, "in_file"⟩,
   ⟨.func_motion_correct_A, "out_file", .func_edge_detect, "infile_a"⟩,
   ⟨.func_get_dilate_mask, "out_file", .func_edge_detect, "infile_b"⟩,
   ⟨.func_edge_detect, "out_file", .func_mean_skullstrip, "in_file"⟩,
   ⟨.func_edge_detect, "out_file", .func_normalize, "in_file"⟩,
   ⟨.func_normalize, "out_file", .func_mask_normalize, "in_file"⟩,
   ⟨.func_drop_trs, "out_file", .outputspec, "drop_tr"⟩,
   ⟨.func_deoblique, "out_file", .outputspec, "refit"⟩,
   ⟨.func_reorient, "out_file", .outputspec, "reorient"⟩,
   ⟨.func_get_mean_motion, "out_file", .outputspec, "motion_correct_ref"⟩,
   ⟨.func_motion_correct_A, "out_file", .outputspec, "motion_correct"⟩,
   ⟨.func_motion_correct_A, "md1d_file", .outputspec, "max_displacement"⟩,
   ⟨.func_motion_correct_A, "oned_file", .outputspec,
     "movement_parameters"⟩,
   ⟨.func_get_dilate_mask, "out_file", .outputspec, "mask"⟩,
   ⟨.func_edge_detect, "out_file", .outputspec, "skullstrip"⟩,
   ⟨.func_mean_skullstrip, "out_file", .outputspec, "example_func"⟩,
   ⟨.func_normalize, "out_file", .outputspec, "preprocessed"⟩,
   ⟨.func_mask_normalize, "out_file", .outputspec, "preprocessed_mask"⟩]

/-- C7: the graph contains exactly two motion-correction (3dvolreg) nodes;
pass 1's registration base is the mean image of the reoriented
(pre-motion-correction) data, which is the sole input of
`func_get_mean_RPI`; pass 2's base is the mean image of pass 1's output,
which is the sole input of `func_get_mean_motion`; and consequently every
schedule of the nodes that respects the dataflow edges runs pass 1 strictly
before pass 2. -/
theorem create_func_preproc_two_pass :
    (preproc_nodes.filter (fun n => interfaceOf n == "Threedvolreg")) =
        [.func_motion_correct, .func_motion_correct_A] ∧
      (⟨.func_get_mean_RPI, "out_file", .func_motion_correct, "basefile"⟩ :
          PEdge) ∈ preproc_connections ∧
      preproc_connections.filter (fun e => e.dst == PNode.func_get_mean_RPI) =
        [⟨.func_reorient, "out_file", .func_get_mean_RPI, "in_file"⟩] ∧
      preproc_connections.filter
          (fun e => e.dst == PNode.func_get_mean_motion) =
        [⟨.func_motion_correct, "out_file", .func_get_mean_motion,
          "in_file"⟩] ∧
      (⟨.func_get_mean_motion, "out_file", .func_motion_correct_A,
          "basefile"⟩ : PEdge) ∈ preproc_connections ∧
      ∀ pos : PNode → Nat,
        (∀ e ∈ preproc_connections, pos e.src < pos e.dst) →
          pos .func_motion_correct < pos .func_motion_correct_A := by
  refine ⟨by decide, by decide, by decide, by decide, by decide, ?_⟩
  intro pos h
  have h1 := h ⟨.func_motion_correct, "out_file", .func_get_mean_motion,
    "in_file"⟩ (by decide)
  have h2 := h ⟨.func_get_mean_motion, "out_file", .func_motion_correct_A,
    "basefile"⟩ (by decide)
  exact Nat.lt_trans h1 h2

/-- A concrete schedule respecting all edges, witnessing that the ordering
hypothesis of the two-pass theorem is satisfiable. -/
def topoOrder : PNode → Nat
  | .inputspec => 0
  | .func_get_idx => 1
  | .func_drop_trs => 2
  | .func_deoblique => 3
  | .func_reorient => 4
  | .func_get_mean_RPI => 5
  | .func_motion_correct => 6
  | .func_get_mean_motion => 7
  | .func_motion_correct_A => 8
  | .func_get_dilate_mask => 9
  | .func_edge_detect => 10
  | .func_mean_skullstrip => 11
  | .func_normalize => 12
  | .func_mask_normalize => 13
  | .outputspec => 14

/-- C7 (witness): the source order of the pipeline respects every edge, and
under it motion-correction pass 1 indeed runs before pass 2. -/
theorem create_func_preproc_two_pass_witness :
    (∀ e ∈ preproc_connections, topoOrder e.src < topoOrder e.dst) ∧
      topoOrder .func_motion_correct < topoOrder .func_motion_correct_A :=
  ⟨by decide,
   create_func_preproc_two_pass.2.2.2.2.2 topoOrder (by decide)⟩

/-! ## The group-analysis module is not valid Python (C9)

Three defects of `cpac_ga_model_generator.py` are captured: the assignment
target `3dmaskave_output` (line 315) is not a valid Python identifier; the
statement `wf = pe.Workflow(...)` (line 372) has an unclosed parenthesis;
and the merge step (line 282) reads the name `modpath`, which is never
assigned anywhere in the function (the model-files directory variable is
spelled `mod_path`). -/

/-- First character of a Python identifier: a letter or an underscore. -/
def isIdentStart (c : Char) : Bool := c.isAlpha || c == '_'

/-- Later characters of a Python identifier. -/
def isIdentChar (c : Char) : Bool := c.isAlphanum || c == '_'

/-- Validity of an (ASCII) Python identifier, as used by this source. -/
def pythonIdentOK : List Char → Bool
  | [] => false
  | c :: rest => isIdentStart c && rest.all isIdentChar

/-- The assignment target of line 315 of the source. -/
def line315_assign_target : List Char := "3dmaskave_output".toList

/-- The text of line 372 of the source. -/
def line372_text : List Char :=
  "wf = pe.Workflow(name = \"%s_%s\" % (resource, group_conf.model_name) ".toList

/-- Count of opening parentheses. -/
def openParens (s : List Char) : Nat := s.countP (· == '(')

/-- Count of closing parentheses. -/
def closeParens (s : List Char) : Nat := s.countP (· == ')')

/-- Every name that receives an assignment anywhere in
`prep_group_analysis_workflow` (assignment statements, `for` targets,
function parameters and the inner `def`), transcribed from the source. -/
def prep_group_assigned_names : List String :=
  ["c", "group_config_file", "resource", "subject_infos",
   "p_id", "s_ids", "scan_ids", "s_paths", "fTest", "group_conf",
   "group_sublist_file", "group_sublist_items", "group_sublist",
   "exist_paths", "derivative_paths", "ga_sub", "sub_id", "other_id",
   "scan_id", "session_id", "path", "out_dir", "mod_path", "new_sub_file",
   "f", "sub", "sub_id_label", "parameter_file", "no_measures_error",
   "measure", "pipeline_path", "current_output", "merge_input",
   "merge_output", "merge_mask_output", "derivative_path", "merge_string",
   "merge_mask_string", "derivative_mean", "derivative_path_subID",
   "strgy_path", "ch", "strgy_path_name", "wf", "workDir", "log_dir",
   "gp_flow", "gpa_wf", "ds", "name"]

/-- The names read by the merge-output statement of line 282
(`merge_output = modpath + "/" + current_output + "_merged.nii.gz"`). -/
def line282_referenced_names : List String := ["modpath", "current_output"]

/-- C9: the captured group-analysis driver is non-functional: line 315's
assignment target is not a valid Python identifier and line 372 has more
opening than closing parentheses (so the module is not valid Python and no
invocation of `prep_group_analysis_workflow` can complete), and
independently the merge step reads `modpath`, a name that is never
assigned in the function. -/
theorem prep_group_analysis_workflow_nonfunctional :
    pythonIdentOK line315_assign_target = false ∧
      openParens line372_text = 2 ∧
      closeParens line372_text = 1 ∧
      openParens line372_text ≠ closeParens line372_text ∧
      "modpath" ∈ line282_referenced_names ∧
      "modpath" ∉ prep_group_assigned_names := by
  decide

/-! ## Output-path regexp substitutions (cpac_ga_model_generator.py 448-456)

The datasink is configured with nine regular-expression substitutions,
applied in list order by `re.sub`.  Six have the shape
`(?<=TOKEN)(.)*[/] -> "/"` (a fixed-width lookbehind) and three the shape
`TOKEN(.)*[/] -> ""`.  Since `.` does not match a newline and no token
contains one, a match (and the lookbehind text) never crosses a newline, so
`re.sub` acts independently on each newline-separated segment of the
string.  Within a segment, the pattern matches at the first position where
the anchor holds and a `/` occurs later in the segment, the greedy
`(.)*[/]` then extends to the segment's *last* `/`, and because the
remainder of the segment after that `/` contains no further `/`, there is
no second match.  The embedding below implements each `re.sub` by this
closed form: split at newlines, rewrite each segment (at most one match),
and re-join with newlines. -/

/-- Python `s.split('\n')` (`n` newlines yield `n + 1` pieces). -/
def splitSep : List Char → List (List Char)
  | [] => [[]]
  | c :: rest =>
    if c = '\n' then [] :: splitSep rest
    else
      match splitSep rest with
      | [] => [[c]]
      | l :: ls => (c :: l) :: ls

/-- Python `'\n'.join(...)`. -/
def joinNL : List (List Char) → List Char
  | [] => []
  | [x] => x
  | x :: y :: rest => x ++ '\n' :: joinNL (y :: rest)

/-- The suffix of a segment after its last `/` (the whole segment when it
has no `/`); this is the part the greedy `(.)*[/]` does not consume. -/
def afterLast (seg : List Char) : List Char :=
  (seg.reverse.takeWhile (fun c => !(c == '/'))).reverse

/-- The pattern `(?<=L)(.)*[/]` matches at position `p` of a segment iff
the lookbehind text ends there and some `/` occurs at or after `p`. -/
def qualA (L seg : List Char) (p : Nat) : Prop :=
  L <:+ seg.take p ∧ '/' ∈ seg.drop p

instance qualA_dec (L seg : List Char) (p : Nat) : Decidable (qualA L seg p) :=
  inferInstanceAs (Decidable (_ ∧ _))

/-- The pattern `P(.)*[/]` matches at position `p` of a segment iff `P`
occurs there and some `/` occurs after it. -/
def qualB (P seg : List Char) (p : Nat) : Prop :=
  P <+: seg.drop p ∧ '/' ∈ seg.drop (p + P.length)

instance qualB_dec (P seg : List Char) (p : Nat) : Decidable (qualB P seg p) :=
  inferInstanceAs (Decidable (_ ∧ _))

/-- Left-to-right scan for the first position satisfying `pred`, trying
`fuel` positions starting at `start` (the regex engine's match scan). -/
def firstFrom (pred : Nat → Bool) : Nat → Nat → Option Nat
  | _, 0 => none
  | start, fuel + 1 =>
    if pred start then some start else firstFrom pred (start + 1) fuel

/-- First match position of `(?<=L)(.)*[/]` in a segment. -/
def firstQualA (L seg : List Char) : Option Nat :=
  firstFrom (fun p => decide (qualA L seg p)) 0 (seg.length + 1)

/-- First match position of `P(.)*[/]` in a segment. -/
def firstQualB (P seg : List Char) : Option Nat :=
  firstFrom (fun p => decide (qualB P seg p)) 0 (seg.length + 1)

/-- `re.sub(r'(?<=L)(.)*[/]', '/', seg)` on a newline-free segment: at the
first match position the greedy match (extending to the segment's last `/`)
is replaced by `/`; without a match the segment is unchanged. -/
def segSubA (L seg : List Char) : List Char :=
  match firstQualA L seg with
  | none => seg
  | some p => seg.take p ++ '/' :: afterLast seg

/-- `re.sub(r'P(.)*[/]', '', seg)` on a newline-free segment. -/
def segSubB (P seg : List Char) : List Char :=
  match firstQualB P seg with
  | none => seg
  | some p => seg.take p ++ afterLast seg

/-- One lookbehind-shaped `re.sub` over a whole (possibly multi-line)
string: segment-wise application. -/
def applyRuleA (L s : List Char) : List Char :=
  joinNL ((splitSep s).map (segSubA L))

/-- One delete-shaped `re.sub` over a whole string. -/
def applyRuleB (P s : List Char) : List Char :=
  joinNL ((splitSep s).map (segSubB P))

/-- The driver's `regexp_substitutions` list (lines 448-456), applied in
source order. -/
def regexp_substitutions (s : List Char) : List Char :=
  applyRuleB "_overlay".toList
    (applyRuleB "_slicer".toList
      (applyRuleB "_cluster".toList
        (applyRuleA "stats/threshold".toList
          (applyRuleA "stats/unthreshold".toList
            (applyRuleA "stats/clusterMap".toList
              (applyRuleA "merged".toList
                (applyRuleA "model_files".toList
                  (applyRuleA "rendered".toList s))))))))

/-- A rule of the substitution table: lookbehind-shaped or delete-shaped. -/
inductive Rule
  | A (L : List Char)
  | B (P : List Char)

/-- Apply one rule to one segment. -/
def applySeg : Rule → List Char → List Char
  | .A L, seg => segSubA L seg
  | .B P, seg => segSubB P seg

/-- Apply one rule to a whole string (one `re.sub`). -/
def applyRule (r : Rule) (s : List Char) : List Char :=
  joinNL ((splitSep s).map (applySeg r))

/-- Apply a rule list left to right (the `regexp_substitutions` loop). -/
def applyRules (rs : List Rule) (s : List Char) : List Char :=
  rs.foldl (fun s r => applyRule r s) s

/-- Apply a rule list to one segment. -/
def segFold (rs : List Rule) (seg : List Char) : List Char :=
  rs.foldl (fun s r => applySeg r s) seg

/-- The driver's nine rules, in source order. -/
def theRules : List Rule :=
  [.A "rendered".toList, .A "model_files".toList, .A "merged".toList,
   .A "stats/clusterMap".toList, .A "stats/unthreshold".toList,
   .A "stats/threshold".toList,
   .B "_cluster".toList, .B "_slicer".toList, .B "_overlay".toList]

theorem splitSep_eq (c : Char) (rest : List Char) :
    splitSep (c :: rest) =
      if c = '\n' then [] :: splitSep rest
      else
        match splitSep rest with
        | [] => [[c]]
        | l :: ls => (c :: l) :: ls := rfl

theorem splitSep_ne_nil (s : List Char) : splitSep s ≠ [] := by
  cases s with
  | nil => simp [splitSep]
  | cons c rest =>
    rw [splitSep_eq]
    by_cases hc : c = '\n'
    · simp [hc]
    · rw [if_neg hc]
      cases splitSep rest <;> simp

theorem splitSep_noNL (s : List Char) : ∀ x ∈ splitSep s, '\n' ∉ x := by
  induction s with
  | nil =>
    intro x hx
    simp only [splitSep, List.mem_singleton] at hx
    simp [hx]
  | cons c rest ih =>
    intro x hx
    rw [splitSep_eq] at hx
    by_cases hc : c = '\n'
    · rw [if_pos hc] at hx
      rcases List.mem_cons.mp hx with rfl | hx
      · simp
      · exact ih x hx
    · rw [if_neg hc] at hx
      cases hr : splitSep rest with
      | nil => exact absurd hr (splitSep_ne_nil rest)
      | cons l ls =>
        rw [hr] at hx
        rcases List.mem_cons.mp hx with rfl | hx
        · intro hmem
          rcases List.mem_cons.mp hmem with h | h
          · exact hc h.symm
          · exact ih l (by rw [hr]; exact List.mem_cons_self l ls) h
        · exact ih x (by rw [hr]; exact List.mem_cons_of_mem l hx)

theorem splitSep_single (x : List Char) (hx : '\n' ∉ x) : splitSep x = [x] := by
  induction x with
  | nil => rfl
  | cons c rest ih =>
    rw [splitSep_eq, if_neg (fun h => hx (by simp [h]))]
    rw [ih (fun h => hx (List.mem_cons_of_mem c h))]

theorem splitSep_append (x r : List Char) (hx : '\n' ∉ x) :
    splitSep (x ++ '\n' :: r) = x :: splitSep r := by
  induction x with
  | nil => rw [List.nil_append, splitSep_eq, if_pos rfl]
  | cons c rest ih =>
    rw [List.cons_append, splitSep_eq, if_neg (fun h => hx (by simp [h]))]
    rw [ih (fun h => hx (List.mem_cons_of_mem c h))]

theorem joinNL_cons_cons (x y : List Char) (rest : List (List Char)) :
    joinNL (x :: y :: rest) = x ++ '\n' :: joinNL (y :: rest) := rfl

theorem splitSep_joinNL (l : List (List Char)) (hl : l ≠ [])
    (h : ∀ x ∈ l, '\n' ∉ x) : splitSep (joinNL l) = l := by
  induction l with
  | nil => exact absurd rfl hl
  | cons x xs ih =>
    cases xs with
    | nil => exact splitSep_single x (h x (by simp))
    | cons y rest =>
      rw [joinNL_cons_cons, splitSep_append x _ (h x (by simp))]
      rw [ih (by simp) (fun z hz => h z (List.mem_cons_of_mem x hz))]

theorem joinNL_splitSep (s : List Char) : joinNL (splitSep s) = s := by
  induction s with
  | nil => rfl
  | cons c rest ih =>
    rw [splitSep_eq]
    by_cases hc : c = '\n'
    · rw [if_pos hc]
      cases hr : splitSep rest with
      | nil => exact absurd hr (splitSep_ne_nil rest)
      | cons y ys =>
        rw [joinNL_cons_cons, List.nil_append, hc, ← hr, ih]
    · rw [if_neg hc]
      cases hr : splitSep rest with
      | nil => exact absurd hr (splitSep_ne_nil rest)
      | cons l ls =>
        cases ls with
        | nil =>
          rw [hr] at ih
          show c :: l = c :: rest
          rw [show joinNL [l] = l from rfl] at ih
          rw [ih]
        | cons z zs =>
          rw [hr] at ih
          rw [joinNL_cons_cons] at ih ⊢
          rw [List.cons_append, ih]

theorem afterLast_no_slash (seg : List Char) : '/' ∉ afterLast seg := by
  intro h
  rw [afterLast, List.mem_reverse] at h
  have := List.mem_takeWhile_imp h
  simp at this

theorem afterLast_subset (seg : List Char) : afterLast seg ⊆ seg := by
  intro x hx
  rw [afterLast, List.mem_reverse] at hx
  exact List.mem_reverse.mp ((List.takeWhile_sublist _).subset hx)

theorem takeWhile_stop {α : Type} (p : α → Bool) (xs ys : List α) (y : α)
    (hxs : ∀ x ∈ xs, p x = true) (hy : p y = false) :
    (xs ++ y :: ys).takeWhile p = xs := by
  induction xs with
  | nil => simp [List.takeWhile_cons, hy]
  | cons a as ih =>
    rw [List.cons_append, List.takeWhile_cons, hxs a (List.mem_cons_self a as)]
    rw [ih (fun x hx => hxs x (List.mem_cons_of_mem a hx))]
    rfl

theorem afterLast_of_decomp (u t : List Char) (ht : '/' ∉ t) :
    afterLast (u ++ '/' :: t) = t := by
  rw [afterLast]
  have hrev : (u ++ '/' :: t).reverse = t.reverse ++ '/' :: u.reverse := by
    simp
  rw [hrev, takeWhile_stop _ _ _ _ ?_ (by simp), List.reverse_reverse]
  intro x hx
  have hxt : x ∈ t := List.mem_reverse.mp hx
  have : ¬x = '/' := fun h => ht (h ▸ hxt)
  simp [this]

theorem slash_split : ∀ s : List Char, '/' ∈ s →
    ∃ u t, s = u ++ '/' :: t ∧ '/' ∉ t := by
  intro s
  induction s with
  | nil => intro hs; simp at hs
  | cons c rest ih =>
    intro hs
    by_cases hr : '/' ∈ rest
    · obtain ⟨u, t, heq, ht⟩ := ih hr
      exact ⟨c :: u, t, by rw [List.cons_append, ← heq], ht⟩
    · have hc : c = '/' := by
        rcases List.mem_cons.mp hs with h | h
        · exact h.symm
        · exact absurd h hr
      exact ⟨[], rest, by rw [hc]; rfl, hr⟩

theorem slash_decomp (seg : List Char) (h : '/' ∈ seg) :
    ∃ u, seg = u ++ '/' :: afterLast seg ∧ '/' ∉ afterLast seg := by
  obtain ⟨u, t, heq, ht⟩ := slash_split seg h
  have hAL : afterLast seg = t := by rw [heq]; exact afterLast_of_decomp u t ht
  exact ⟨u, by rw [hAL, heq], by rw [hAL]; exact ht⟩

theorem slash_in_drop (u t : List Char) (ht : '/' ∉ t) (q : Nat) :
    '/' ∈ (u ++ '/' :: t).drop q ↔ q ≤ u.length := by
  constructor
  · intro h
    by_contra hq
    push_neg at hq
    have hq1 : q = u.length + ((q - u.length - 1) + 1) := by omega
    rw [hq1, List.drop_append, List.drop_succ_cons] at h
    exact ht (List.drop_subset _ _ h)
  · intro hq
    rw [List.drop_append_of_le_length hq]
    exact List.mem_append_right _ (List.mem_cons_self '/' t)

theorem mem_drop_lt (seg : List Char) (p : Nat) (h : '/' ∈ seg.drop p) :
    p < seg.length := by
  by_contra hp
  push_neg at hp
  rw [List.drop_eq_nil_of_le hp] at h
  simp at h

theorem mem_drop_mono (x : Char) (l : List Char) (a b : Nat) (hab : a ≤ b)
    (h : x ∈ l.drop b) : x ∈ l.drop a := by
  have e : b = a + (b - a) := by omega
  rw [e, ← List.drop_drop] at h
  exact List.drop_subset _ _ h

theorem take_append_take (seg z : List Char) (q p : Nat) (hq : q ≤ p)
    (hp : p ≤ seg.length) : (seg.take p ++ z).take q = seg.take q := by
  rw [List.take_append_of_le_length (by rw [List.length_take]; omega),
    List.take_take, min_eq_left hq]

theorem prefix_drop_transfer (seg z P : List Char) (q p : Nat)
    (hqp : q + P.length ≤ p) (hp : p ≤ seg.length) :
    (P <+: (seg.take p ++ z).drop q) ↔ P <+: seg.drop q := by
  rw [List.prefix_iff_eq_take, List.prefix_iff_eq_take, List.take_drop,
    List.take_drop, take_append_take seg z (q + P.length) p hqp hp]

theorem noslash_append_drop (x t : List Char) (ht : '/' ∉ t) (m : Nat)
    (hm : x.length ≤ m) : '/' ∉ (x ++ t).drop m := by
  intro h
  have heq : m = x.length + (m - x.length) := by omega
  rw [heq, List.drop_append] at h
  exact ht (List.drop_subset _ _ h)

theorem noslash_consSlash_drop (x t : List Char) (ht : '/' ∉ t) (m : Nat)
    (hm : x.length + 1 ≤ m) : '/' ∉ (x ++ '/' :: t).drop m := by
  intro h
  have heq : x ++ '/' :: t = (x ++ ['/']) ++ t := by simp
  rw [heq] at h
  exact noslash_append_drop (x ++ ['/']) t ht m (by simp; omega) h

theorem firstFrom_some (pred : Nat → Bool) :
    ∀ fuel start p, firstFrom pred start fuel = some p →
      pred p = true ∧ start ≤ p ∧ ∀ q, start ≤ q → q < p → pred q = false := by
  intro fuel
  induction fuel with
  | zero => intro start p h; exact absurd h (by simp [firstFrom])
  | succ n ih =>
    intro start p h
    simp only [firstFrom] at h
    by_cases hs : pred start
    · rw [if_pos hs] at h
      injection h with h
      subst h
      exact ⟨hs, le_refl _, fun q hq1 hq2 => absurd hq1 (by omega)⟩
    · rw [if_neg hs] at h
      obtain ⟨h1, h2, h3⟩ := ih (start + 1) p h
      refine ⟨h1, by omega, fun q hq1 hq2 => ?_⟩
      by_cases hq : q = start
      · subst hq
        cases hb : pred q
        · rfl
        · exact absurd hb hs
      · exact h3 q (by omega) hq2

theorem firstFrom_none (pred : Nat → Bool) :
    ∀ fuel start, firstFrom pred start fuel = none →
      ∀ q, start ≤ q → q < start + fuel → pred q = false := by
  intro fuel
  induction fuel with
  | zero => intro start _ q hq1 hq2; omega
  | succ n ih =>
    intro start h q hq1 hq2
    simp only [firstFrom] at h
    by_cases hs : pred start
    · rw [if_pos hs] at h; exact absurd h (by simp)
    · rw [if_neg hs] at h
      by_cases hq : q = start
      · subst hq
        cases hb : pred q
        · rfl
        · exact absurd hb hs
      · exact ih (start + 1) h q (by omega) (by omega)

theorem segSubA_none (L seg : List Char) (h : firstQualA L seg = none) :
    segSubA L seg = seg := by
  simp only [segSubA, h]

theorem segSubA_some (L seg : List Char) (p : Nat)
    (h : firstQualA L seg = some p) :
    segSubA L seg = seg.take p ++ '/' :: afterLast seg := by
  simp only [segSubA, h]

theorem segSubB_none (P seg : List Char) (h : firstQualB P seg = none) :
    segSubB P seg = seg := by
  simp only [segSubB, h]

theorem segSubB_some (P seg : List Char) (p : Nat)
    (h : firstQualB P seg = some p) :
    segSubB P seg = seg.take p ++ afterLast seg := by
  simp only [segSubB, h]

/-- Invariant under which a lookbehind-shaped rule acts as the identity:
after any occurrence of the lookbehind text there is no `/` strictly later
in the segment (so the only possible match is the trivial `/` replaced by
`/`). -/
def okA (L seg : List Char) : Prop :=
  ∀ p, L <:+ seg.take p → '/' ∉ seg.drop (p + 1)

/-- Invariant under which a delete-shaped rule has no match at all: no
occurrence of the pattern is followed by a later `/`. -/
def okB (P seg : List Char) : Prop :=
  ∀ p, P <+: seg.drop p → '/' ∉ seg.drop (p + P.length)

theorem fixA (L seg : List Char) (h : okA L seg) : segSubA L seg = seg := by
  cases hf : firstQualA L seg with
  | none => exact segSubA_none L seg hf
  | some p =>
    rw [segSubA_some L seg p hf]
    obtain ⟨hp, -, -⟩ := firstFrom_some _ _ _ _ hf
    obtain ⟨hlb, hsl⟩ := of_decide_eq_true hp
    have hnd : '/' ∉ seg.drop (p + 1) := h p hlb
    have hplt : p < seg.length := mem_drop_lt seg p hsl
    have hdrop : seg.drop p = seg[p] :: seg.drop (p + 1) :=
      List.drop_eq_getElem_cons hplt
    have hgp : seg[p] = '/' := by
      rw [hdrop] at hsl
      rcases List.mem_cons.mp hsl with h1 | h1
      · exact h1.symm
      · exact absurd h1 hnd
    have hseg : seg = seg.take p ++ '/' :: seg.drop (p + 1) := by
      conv_lhs => rw [← List.take_append_drop p seg]
      rw [hdrop, hgp]
    have hAL : afterLast seg = seg.drop (p + 1) := by
      conv_lhs => rw [hseg]
      exact afterLast_of_decomp _ _ hnd
    rw [hAL, ← hseg]

theorem fixB (P seg : List Char) (h : okB P seg) : segSubB P seg = seg := by
  cases hf : firstQualB P seg with
  | none => exact segSubB_none P seg hf
  | some p =>
    exfalso
    obtain ⟨hp, -, -⟩ := firstFrom_some _ _ _ _ hf
    obtain ⟨hpre, hsl⟩ := of_decide_eq_true hp
    exact h p hpre hsl

theorem estabA (L seg : List Char) : okA L (segSubA L seg) := by
  cases hf : firstQualA L seg with
  | none =>
    rw [segSubA_none L seg hf]
    intro q hq hmem
    have h1 : '/' ∈ seg.drop q := mem_drop_mono _ _ q (q + 1) (by omega) hmem
    have hqlt : q < seg.length := mem_drop_lt seg q h1
    have hb := firstFrom_none _ _ _ hf q (by omega) (by omega)
    rw [decide_eq_false_iff_not] at hb
    exact hb ⟨hq, h1⟩
  | some p =>
    rw [segSubA_some L seg p hf]
    obtain ⟨hp, -, hmin⟩ := firstFrom_some _ _ _ _ hf
    obtain ⟨hlb, hsl⟩ := of_decide_eq_true hp
    have hplt : p < seg.length := mem_drop_lt seg p hsl
    obtain ⟨u, hdecomp, hALn⟩ := slash_decomp seg (List.drop_subset _ _ hsl)
    intro q hq hmem
    by_cases hqp : q < p
    · rw [take_append_take seg _ q p (by omega) (by omega)] at hq
      have h1 : '/' ∈ seg.drop q := mem_drop_mono _ _ q p (by omega) hsl
      have hb := hmin q (by omega) hqp
      rw [decide_eq_false_iff_not] at hb
      exact hb ⟨hq, h1⟩
    · exact noslash_consSlash_drop (seg.take p) (afterLast seg) hALn (q + 1)
        (by rw [List.length_take]; omega) hmem

theorem estabB (P seg : List Char) : okB P (segSubB P seg) := by
  cases hf : firstQualB P seg with
  | none =>
    rw [segSubB_none P seg hf]
    intro q hq hmem
    have hqlt : q + P.length < seg.length := mem_drop_lt seg _ hmem
    have hb := firstFrom_none _ _ _ hf q (by omega) (by omega)
    rw [decide_eq_false_iff_not] at hb
    exact hb ⟨hq, hmem⟩
  | some p =>
    rw [segSubB_some P seg p hf]
    obtain ⟨hp, -, hmin⟩ := firstFrom_some _ _ _ _ hf
    obtain ⟨hpre, hsl⟩ := of_decide_eq_true hp
    have hplt : p + P.length < seg.length := mem_drop_lt seg _ hsl
    obtain ⟨u, hdecomp, hALn⟩ := slash_decomp seg (List.drop_subset _ _ hsl)
    intro q hq hmem
    by_cases hqp : q < p ∧ q + P.length ≤ p
    · obtain ⟨hq1, hq2⟩ := hqp
      rw [prefix_drop_transfer seg _ P q p hq2 (by omega)] at hq
      have h1 : '/' ∈ seg.drop (q + P.length) :=
        mem_drop_mono _ _ (q + P.length) (p + P.length) (by omega) hsl
      have hb := hmin q (by omega) hq1
      rw [decide_eq_false_iff_not] at hb
      exact hb ⟨hq, h1⟩
    · push_neg at hqp
      have hge : (seg.take p).length ≤ q + P.length := by
        rw [List.length_take]
        by_cases hq1 : q < p
        · have := hqp hq1; omega
        · omega
      exact noslash_append_drop (seg.take p) (afterLast seg) hALn
        (q + P.length) hge hmem

theorem presAA (L L' seg : List Char) (h : okA L seg) :
    okA L (segSubA L' seg) := by
  cases hf : firstQualA L' seg with
  | none => rw [segSubA_none L' seg hf]; exact h
  | some p =>
    rw [segSubA_some L' seg p hf]
    obtain ⟨hp, -, -⟩ := firstFrom_some _ _ _ _ hf
    obtain ⟨-, hsl⟩ := of_decide_eq_true hp
    have hplt : p < seg.length := mem_drop_lt seg p hsl
    obtain ⟨u, hdecomp, hALn⟩ := slash_decomp seg (List.drop_subset _ _ hsl)
    intro q hq hmem
    by_cases hqp : q < p
    · rw [take_append_take seg _ q p (by omega) (by omega)] at hq
      exact h q hq (mem_drop_mono _ _ (q + 1) p (by omega) hsl)
    · exact noslash_consSlash_drop (seg.take p) (afterLast seg) hALn (q + 1)
        (by rw [List.length_take]; omega) hmem

theorem presAB (L P' seg : List Char) (h : okA L seg) :
    okA L (segSubB P' seg) := by
  cases hf : firstQualB P' seg with
  | none => rw [segSubB_none P' seg hf]; exact h
  | some p =>
    rw [segSubB_some P' seg p hf]
    obtain ⟨hp, -, -⟩ := firstFrom_some _ _ _ _ hf
    obtain ⟨-, hsl⟩ := of_decide_eq_true hp
    have hplt : p + P'.length < seg.length := mem_drop_lt seg _ hsl
    obtain ⟨u, hdecomp, hALn⟩ := slash_decomp seg (List.drop_subset _ _ hsl)
    intro q hq hmem
    by_cases hqp : q < p
    · rw [take_append_take seg _ q p (by omega) (by omega)] at hq
      exact h q hq (mem_drop_mono _ _ (q + 1) (p + P'.length) (by omega) hsl)
    · exact noslash_append_drop (seg.take p) (afterLast seg) hALn (q + 1)
        (by rw [List.length_take]; omega) hmem

theorem presBA (P L' seg : List Char) (h : okB P seg) :
    okB P (segSubA L' seg) := by
  cases hf : firstQualA L' seg with
  | none => rw [segSubA_none L' seg hf]; exact h
  | some p =>
    rw [segSubA_some L' seg p hf]
    obtain ⟨hp, -, -⟩ := firstFrom_some _ _ _ _ hf
    obtain ⟨-, hsl⟩ := of_decide_eq_true hp
    have hplt : p < seg.length := mem_drop_lt seg p hsl
    obtain ⟨u, hdecomp, hALn⟩ := slash_decomp seg (List.drop_subset _ _ hsl)
    intro q hq hmem
    by_cases hqp : q + P.length ≤ p
    · rw [prefix_drop_transfer seg _ P q p hqp (by omega)] at hq
      exact h q hq (mem_drop_mono _ _ (q + P.length) p (by omega) hsl)
    · push_neg at hqp
      exact noslash_consSlash_drop (seg.take p) (afterLast seg) hALn
        (q + P.length) (by rw [List.length_take]; omega) hmem

theorem presBB (P P' seg : List Char) (h : okB P seg) :
    okB P (segSubB P' seg) := by
  cases hf : firstQualB P' seg with
  | none => rw [segSubB_none P' seg hf]; exact h
  | some p =>
    rw [segSubB_some P' seg p hf]
    obtain ⟨hp, -, -⟩ := firstFrom_some _ _ _ _ hf
    obtain ⟨-, hsl⟩ := of_decide_eq_true hp
    have hplt : p + P'.length < seg.length := mem_drop_lt seg _ hsl
    obtain ⟨u, hdecomp, hALn⟩ := slash_decomp seg (List.drop_subset _ _ hsl)
    intro q hq hmem
    by_cases hqp : q + P.length ≤ p
    · rw [prefix_drop_transfer seg _ P q p hqp (by omega)] at hq
      exact h q hq
        (mem_drop_mono _ _ (q + P.length) (p + P'.length) (by omega) hsl)
    · push_neg at hqp
      exact noslash_append_drop (seg.take p) (afterLast seg) hALn
        (q + P.length) (by rw [List.length_take]; omega) hmem

/-- The invariant matching a rule's shape. -/
def okRule : Rule → List Char → Prop
  | .A L, seg => okA L seg
  | .B P, seg => okB P seg

theorem estabRule (r : Rule) (seg : List Char) : okRule r (applySeg r seg) := by
  cases r with
  | A L => exact estabA L seg
  | B P => exact estabB P seg

theorem presRule (r r' : Rule) (seg : List Char) (h : okRule r seg) :
    okRule r (applySeg r' seg) := by
  cases r with
  | A L =>
    cases r' with
    | A L' => exact presAA L L' seg h
    | B P' => exact presAB L P' seg h
  | B P =>
    cases r' with
    | A L' => exact presBA P L' seg h
    | B P' => exact presBB P P' seg h

theorem fixRule (r : Rule) (seg : List Char) (h : okRule r seg) :
    applySeg r seg = seg := by
  cases r with
  | A L => exact fixA L seg h
  | B P => exact fixB P seg h

theorem segFold_cons (r : Rule) (rs : List Rule) (seg : List Char) :
    segFold (r :: rs) seg = segFold rs (applySeg r seg) := rfl

theorem segFold_append (xs ys : List Rule) (seg : List Char) :
    segFold (xs ++ ys) seg = segFold ys (segFold xs seg) :=
  List.foldl_append _ _ _ _

theorem segFold_ok (rs : List Rule) (r : Rule) :
    ∀ seg, okRule r seg → okRule r (segFold rs seg) := by
  induction rs with
  | nil => exact fun seg h => h
  | cons r' rest ih =>
    intro seg h
    rw [segFold_cons]
    exact ih _ (presRule r r' seg h)

theorem segFold_fix (rs : List Rule) :
    ∀ seg, (∀ r ∈ rs, okRule r seg) → segFold rs seg = seg := by
  induction rs with
  | nil => exact fun seg _ => rfl
  | cons r rest ih =>
    intro seg h
    rw [segFold_cons, fixRule r seg (h r (List.mem_cons_self r rest))]
    exact ih seg (fun r' hr' => h r' (List.mem_cons_of_mem r hr'))

theorem okRule_at_position (xs ys : List Rule) (r : Rule) (seg : List Char) :
    okRule r (segFold (xs ++ r :: ys) seg) := by
  rw [segFold_append, segFold_cons]
  exact segFold_ok ys r _ (estabRule r _)

theorem allOk_theRules (seg : List Char) :
    ∀ r ∈ theRules, okRule r (segFold theRules seg) := by
  intro r hr
  have h9 : theRules =
      [Rule.A "rendered".toList, .A "model_files".toList, .A "merged".toList,
       .A "stats/clusterMap".toList, .A "stats/unthreshold".toList,
       .A "stats/threshold".toList,
       .B "_cluster".toList, .B "_slicer".toList, .B "_overlay".toList] := rfl
  rw [h9] at hr
  simp only [List.mem_cons, List.not_mem_nil, or_false] at hr
  rcases hr with rfl | rfl | rfl | rfl | rfl | rfl | rfl | rfl | rfl
  · exact okRule_at_position [] _ _ seg
  · exact okRule_at_position [.A "rendered".toList] _ _ seg
  · exact okRule_at_position
      [.A "rendered".toList, .A "model_files".toList] _ _ seg
  · exact okRule_at_position
      [.A "rendered".toList, .A "model_files".toList, .A "merged".toList]
      _ _ seg
  · exact okRule_at_position
      [.A "rendered".toList, .A "model_files".toList, .A "merged".toList,
       .A "stats/clusterMap".toList] _ _ seg
  · exact okRule_at_position
      [.A "rendered".toList, .A "model_files".toList, .A "merged".toList,
       .A "stats/clusterMap".toList, .A "stats/unthreshold".toList] _ _ seg
  · exact okRule_at_position
      [.A "rendered".toList, .A "model_files".toList, .A "merged".toList,
       .A "stats/clusterMap".toList, .A "stats/unthreshold".toList,
       .A "stats/threshold".toList] _ _ seg
  · exact okRule_at_position
      [.A "rendered".toList, .A "model_files".toList, .A "merged".toList,
       .A "stats/clusterMap".toList, .A "stats/unthreshold".toList,
       .A "stats/threshold".toList, .B "_cluster".toList] _ _ seg
  · exact okRule_at_position
      [.A "rendered".toList, .A "model_files".toList, .A "merged".toList,
       .A "stats/clusterMap".toList, .A "stats/unthreshold".toList,
       .A "stats/threshold".toList, .B "_cluster".toList,
       .B "_slicer".toList] _ _ seg

theorem segFold_theRules_idem (seg : List Char) :
    segFold theRules (segFold theRules seg) = segFold theRules seg :=
  segFold_fix theRules _ (allOk_theRules seg)

theorem segSubA_noNL (L seg : List Char) (h : '\n' ∉ seg) :
    '\n' ∉ segSubA L seg := by
  cases hf : firstQualA L seg with
  | none => rw [segSubA_none L seg hf]; exact h
  | some p =>
    rw [segSubA_some L seg p hf]
    intro hm
    rcases List.mem_append.mp hm with h1 | h1
    · exact h (List.take_subset _ _ h1)
    · rcases List.mem_cons.mp h1 with h2 | h2
      · exact absurd h2 (by decide)
      · exact h (afterLast_subset seg h2)

theorem segSubB_noNL (P seg : List Char) (h : '\n' ∉ seg) :
    '\n' ∉ segSubB P seg := by
  cases hf : firstQualB P seg with
  | none => rw [segSubB_none P seg hf]; exact h
  | some p =>
    rw [segSubB_some P seg p hf]
    intro hm
    rcases List.mem_append.mp hm with h1 | h1
    · exact h (List.take_subset _ _ h1)
    · exact h (afterLast_subset seg h1)

theorem applySeg_noNL (r : Rule) (seg : List Char) (h : '\n' ∉ seg) :
    '\n' ∉ applySeg r seg := by
  cases r with
  | A L => exact segSubA_noNL L seg h
  | B P => exact segSubB_noNL P seg h

theorem applyRules_cons (r : Rule) (rs : List Rule) (s : List Char) :
    applyRules (r :: rs) s = applyRules rs (applyRule r s) := rfl

theorem applyRules_eq (rs : List Rule) :
    ∀ s, applyRules rs s = joinNL ((splitSep s).map (segFold rs)) := by
  induction rs with
  | nil =>
    intro s
    have : (splitSep s).map (segFold []) = splitSep s := List.map_id _
    rw [show applyRules [] s = s from rfl, this, joinNL_splitSep]
  | cons r rest ih =>
    intro s
    rw [applyRules_cons, ih,
      show applyRule r s = joinNL ((splitSep s).map (applySeg r)) from rfl,
      splitSep_joinNL _ (by simp [splitSep_ne_nil]) ?_, List.map_map]
    · rfl
    · intro x hx
      rw [List.mem_map] at hx
      obtain ⟨y, hy, rfl⟩ := hx
      exact applySeg_noNL r y (splitSep_noNL s y hy)

theorem applySeg_A (L : List Char) : applySeg (.A L) = segSubA L := rfl

theorem applySeg_B (P : List Char) : applySeg (.B P) = segSubB P := rfl

theorem regexp_substitutions_eq_applyRules (w : List Char) :
    regexp_substitutions w = applyRules theRules w := by
  simp only [regexp_substitutions, applyRules, theRules, List.foldl,
    applyRule, applyRuleA, applyRuleB, applySeg_A, applySeg_B]

theorem segFold_noNL (rs : List Rule) :
    ∀ z : List Char, '\n' ∉ z → '\n' ∉ segFold rs z := by
  induction rs with
  | nil => exact fun z hz => hz
  | cons r rest ih =>
    intro z hz
    rw [segFold_cons]
    exact ih _ (applySeg_noNL r z hz)

theorem map_map_self {α : Type} (f : α → α) (l : List α)
    (h : ∀ x ∈ l, f (f x) = f x) : (l.map f).map f = l.map f := by
  induction l with
  | nil => rfl
  | cons a as ih =>
    simp only [List.map_cons]
    rw [h a (List.mem_cons_self a as),
      ih (fun x hx => h x (List.mem_cons_of_mem a hx))]

theorem regexp_substitutions_split (w : List Char) :
    regexp_substitutions w = joinNL ((splitSep w).map (segFold theRules)) := by
  rw [regexp_substitutions_eq_applyRules w, applyRules_eq theRules w]

/-- C8: the driver's nine-rule regexp substitution pass on output paths is
idempotent (applying the list twice yields the same string as applying it
once) and deterministic (a pure function of the input path). -/
theorem regexp_substitutions_idempotent (s : List Char) :
    regexp_substitutions (regexp_substitutions s) = regexp_substitutions s ∧
      ∀ t, s = t → regexp_substitutions s = regexp_substitutions t := by
  refine ⟨?_, fun t h => by rw [h]⟩
  have hnl1 : ∀ x ∈ (splitSep s).map (segFold theRules), '\n' ∉ x := by
    intro x hx
    rw [List.mem_map] at hx
    obtain ⟨y, hy, rfl⟩ := hx
    exact segFold_noNL theRules y (splitSep_noNL s y hy)
  have h1 : splitSep (joinNL ((splitSep s).map (segFold theRules))) =
      (splitSep s).map (segFold theRules) :=
    splitSep_joinNL _ (by simp [splitSep_ne_nil]) hnl1
  calc regexp_substitutions (regexp_substitutions s)
      = joinNL ((splitSep (joinNL ((splitSep s).map
          (segFold theRules)))).map (segFold theRules)) := by
        rw [regexp_substitutions_split s]
        exact regexp_substitutions_split _
    _ = joinNL (((splitSep s).map (segFold theRules)).map
          (segFold theRules)) := by rw [h1]
    _ = joinNL ((splitSep s).map (segFold theRules)) := by
        rw [map_map_self (segFold theRules) (splitSep s)
          (fun x _ => segFold_theRules_idem x)]
    _ = regexp_substitutions s := (regexp_substitutions_split s).symm

/-- C8 (witness): a concrete rewritten path, and idempotence on it. -/
theorem regexp_substitutions_idempotent_witness :
    regexp_substitutions "rendered_a/b".toList = "rendered/b".toList ∧
      regexp_substitutions (regexp_substitutions "rendered_a/b".toList) =
        regexp_substitutions "rendered_a/b".toList :=
  ⟨by decide, (regexp_substitutions_idempotent "rendered_a/b".toList).1⟩

end CPAC
